import Mathlib

/-!
# Verification of the lendx debt-netting and settlement engine

Shallow embedding of the core of the repository:

* `src/graph/nets.py` (`compute_nets`)
* `src/graph/reduce.py` (`reduce_cycle`)
* `backend/graph/cycles.py` (`detect_cycle`; `src/services/iou.py` imports
  `src.graph.cycles`, whose code in this repository is the module under
  `backend/graph/`)
* `src/services/iou.py` (`add_iou` plus the `_graphs` / `_nets_cache` stores)
* `src/services/settlement.py` (proposal state machine and `_build_payments`)
* `src/services/balance_sync.py` (`compute_deltas`, `batch_execute_operations`,
  `sync_balances`)

Python `float` amounts are embedded as exact rationals (`ℚ`); the spec treats
amounts as "already-validated positive real numbers", and every comparison the
code performs (`> 0`, `<= 1e-9`, `> 0.000001`, `min`, subtraction) is carried
over verbatim on `ℚ`.

Python `dict`s are embedded as insertion-ordered association lists: updating an
existing key keeps its position, a new key is appended at the end, exactly as
CPython dicts behave.
-/

namespace LendX

/-- The per-value type of a Python `dict[str, float]` in this embedding. -/
abbrev Dict := List (String × ℚ)

/-- `d[k] = v` on an insertion-ordered dict: overwrite in place, else append. -/
def dictSet {α : Type} : List (String × α) → String → α → List (String × α)
  | [], k, v => [(k, v)]
  | (k', v') :: rest, k, v =>
    if k' = k then (k', v) :: rest else (k', v') :: dictSet rest k v

/-- `defaultdict(float)`-style `d[k] += v`: add into the entry, inserting a
fresh entry (initialised to the added value) at the end when absent. -/
def dictAdd : Dict → String → ℚ → Dict
  | [], k, v => [(k, v)]
  | (k', v') :: rest, k, v =>
    if k' = k then (k', v' + v) :: rest else (k', v') :: dictAdd rest k v

/-- `d.get(k, default)`. -/
def getD {α : Type} (d : List (String × α)) (k : String) (default : α) : α :=
  (d.lookup k).getD default

/-- Sum of the values of a dict (used to state conservation of debt). -/
def sumValues (d : Dict) : ℚ := (d.map Prod.snd).sum

/-- `Edge` from `backend/graph/types.py`: "debtor owes creditor amount". -/
structure Edge where
  debtor : String
  creditor : String
  amount : ℚ
deriving DecidableEq, Repr

/-- `compute_nets` from `src/graph/nets.py`: fold every edge into a
`defaultdict`, adding the amount to the debtor and subtracting it from the
creditor. -/
def compute_nets (edges : List Edge) : Dict :=
  edges.foldl
    (fun balances e => dictAdd (dictAdd balances e.debtor e.amount) e.creditor (-e.amount))
    []

theorem sumValues_dictAdd (d : Dict) (k : String) (v : ℚ) :
    sumValues (dictAdd d k v) = sumValues d + v := by
  induction d with
  | nil => simp [dictAdd, sumValues]
  | cons hd tl ih =>
    obtain ⟨k', v'⟩ := hd
    by_cases h : k' = k
    · simp [dictAdd, h, sumValues]
      ring
    · simp only [dictAdd, h, if_false, sumValues, List.map_cons, List.sum_cons] at ih ⊢
      rw [ih]
      ring

theorem sumValues_compute_nets_aux (edges : List Edge) (acc : Dict) :
    sumValues (edges.foldl
      (fun balances e =>
        dictAdd (dictAdd balances e.debtor e.amount) e.creditor (-e.amount)) acc)
      = sumValues acc := by
  induction edges generalizing acc with
  | nil => rfl
  | cons e es ih =>
    simp only [List.foldl_cons]
    rw [ih, sumValues_dictAdd, sumValues_dictAdd]
    ring

/-- C2: conservation of debt. For every list of edges, the values stored in
the mapping returned by `compute_nets` (one entry per participant that
appears) sum to exactly zero; in particular this holds for the nets returned
after every `add_iou` insertion, which are `compute_nets` of the updated edge
list. -/
theorem compute_nets_conservation (edges : List Edge) :
    sumValues (compute_nets edges) = 0 :=
  sumValues_compute_nets_aux edges []

/-! ## Cycle detection (`backend/graph/cycles.py`) -/

/-- `adjacency.get(node, [])`: the creditors of every edge whose debtor is
`node`, in edge order (the Python code builds the whole adjacency dict up
front with `setdefault(..., []).append(...)`, which yields exactly this list
per debtor). -/
def neighbors (edges : List Edge) (node : String) : List String :=
  (edges.filter (fun e => e.debtor = node)).map (·.creditor)

/-- One BFS expansion: fold the popped node's neighbors over
`(parents, queue)`, skipping neighbors already recorded as keys of `parents`
and otherwise recording their parent and enqueueing them at the back. -/
def bfsExpand (node : String) (nbs : List String)
    (st : List (String × Option String) × List String) :
    List (String × Option String) × List String :=
  nbs.foldl
    (fun acc nb =>
      if (acc.1.lookup nb).isSome then acc
      else (acc.1 ++ [(nb, some node)], acc.2 ++ [nb]))
    st

/-- The `while queue:` loop of `detect_cycle`: pop from the front, stop when
the target is popped, otherwise record parents for unseen neighbors and push
them at the back.  The loop provably performs at most `edges.length + 2`
iterations (each iteration dequeues one node; the start node is enqueued once
and every other node is enqueued at most once, when it first receives a
parent, and such nodes are creditors of distinct positions of `edges`), so
running it with that much fuel computes exactly the Python loop; the fuel-zero
branch is unreachable. -/
def bfsLoop (edges : List Edge) (target : String) :
    Nat → List String → List (String × Option String) → List (String × Option String)
  | 0, _, parents => parents
  | _ + 1, [], parents => parents
  | fuel + 1, node :: queue, parents =>
    if node = target then parents
    else
      let st := bfsExpand node (neighbors edges node) (parents, queue)
      bfsLoop edges target fuel st.2 st.1

/-- The `while cursor is not None:` reconstruction loop: follow parent
pointers from the target, appending each visited node.  Parent pointers form
a forest rooted at the start node (each recorded parent was popped, hence
recorded, strictly earlier), so the walk visits distinct keys of `parents`
and `parents.length + 1` fuel always suffices; the fuel-zero and missing-key
branches are unreachable. -/
def reconstruct (parents : List (String × Option String)) :
    Nat → String → List String → List String
  | 0, _, acc => acc
  | fuel + 1, cursor, acc =>
    match parents.lookup cursor with
    | some (some par) => reconstruct parents fuel par (acc ++ [cursor])
    | some none => acc ++ [cursor]
    | none => acc ++ [cursor]

/-- `detect_cycle` from `backend/graph/cycles.py`: BFS from the new edge's
creditor back to its debtor over the existing edges; on success return the
closed path `creditor → … → debtor → creditor`. -/
def detect_cycle (edges : List Edge) (newEdge : Edge) : Option (List String) :=
  let start := newEdge.creditor
  let target := newEdge.debtor
  if start = target then some [start, start]
  else
    let parents := bfsLoop edges target (edges.length + 2) [start] [(start, none)]
    if (parents.lookup target).isSome then
      some ((reconstruct parents (parents.length + 1) target []).reverse ++ [start])
    else none

/-! ## Cycle reduction (`src/graph/reduce.py`) -/

/-- `EPSILON = 1e-9`. -/
def EPSILON : ℚ := 1 / 1000000000

def matchesPair (e : Edge) (p : String × String) : Bool :=
  e.debtor = p.1 && e.creditor = p.2

/-- The smallest edge index matching the pair that has not been used yet.
The Python code keeps, per `(debtor, creditor)` key, the list of its edge
indices in ascending order and pops the front; since indices consumed for a
*different* key never match this pair, the popped front is exactly the least
unused matching index. -/
def pickIndex (edges : List Edge) (used : List Nat) (p : String × String) : Option Nat :=
  (List.range edges.length).find?
    (fun i => decide (i ∉ used) && ((edges[i]?.map (matchesPair · p)).getD false))

/-- Resolve every cycle pair to one matching edge index (first unused match),
failing like the `ValueError` when some pair has no remaining edge. -/
def cycleIndices (edges : List Edge) : List (String × String) → List Nat → Option (List Nat)
  | [], _ => some []
  | p :: ps, used =>
    match pickIndex edges used p with
    | none => none
    | some i => (cycleIndices edges ps (used ++ [i])).map (i :: ·)

/-- `min(l, default=0.0)`: Python's `min` of a list, 0 when empty. -/
def listMin (l : List ℚ) : ℚ :=
  match l with
  | [] => 0
  | a :: rest => rest.foldl min a

/-- `min(cycle_amounts, default=0.0)` over the amounts of the matched edges. -/
def cycleMin (edges : List Edge) (idxs : List Nat) : ℚ :=
  listMin (idxs.filterMap (fun i => edges[i]?.map (·.amount)))

/-- The final `for idx, edge in enumerate(edges)` pass of `reduce_cycle`:
subtract `minA` from each matched edge, drop it when the remaining amount is
≤ `EPSILON`, and keep every unmatched edge unchanged. -/
def reducedEdges (edges : List Edge) (idxs : List Nat) (minA : ℚ) : List Edge :=
  (edges.enum).filterMap (fun ie =>
    if ie.1 ∈ idxs then
      if ie.2.amount - minA > EPSILON then
        some { ie.2 with amount := ie.2.amount - minA }
      else none
    else some ie.2)

/-- `reduce_cycle` from `src/graph/reduce.py`.  `none` models the raised
`ValueError` (non-closed path / missing edge for a pair). -/
def reduce_cycle (edges : List Edge) (cyclePath : List String) : Option (List Edge) :=
  if cyclePath.length < 2 ∨ cyclePath.head? ≠ cyclePath.getLast? then none
  else
    let cyclePairs := cyclePath.zip cyclePath.tail
    if cyclePairs = [] then some edges
    else
      match cycleIndices edges cyclePairs [] with
      | none => none
      | some idxs =>
        let minAmount := cycleMin edges idxs
        if minAmount ≤ 0 then some edges
        else some (reducedEdges edges idxs minAmount)

/-! ## `add_iou` and the module-level stores (`src/services/iou.py`) -/

/-- The module-level mutable state of `src/services/iou.py`: `_graphs`
(`group_id → Graph`, with a `Graph` carrying its edge list) and
`_nets_cache`.  The `updated_at` timestamp is real time, outside the
embedding. -/
structure Store where
  graphs : List (String × List Edge)
  netsCache : List (String × Dict)
deriving DecidableEq, Repr

/-- `add_iou(group_id, debtor, creditor, amount)`.  Returns the store as it
stands when the function returns or raises, paired with the returned nets or
the error message.  Validation happens before `_graphs.setdefault`, which in
turn happens before any edge mutation; a `ValueError` escaping `reduce_cycle`
would leave the (possibly freshly inserted) graph's edges unchanged. -/
def add_iou (s : Store) (groupId debtor creditor : String) (amount : ℚ) :
    Store × Except String Dict :=
  if amount ≤ 0 then (s, .error "amount must be positive")
  else if debtor = creditor then (s, .error "debtor and creditor must be different users")
  else
    let edges := getD s.graphs groupId []
    let graphs0 :=
      if (s.graphs.lookup groupId).isSome then s.graphs
      else s.graphs ++ [(groupId, [])]
    let newEdge : Edge := ⟨debtor, creditor, amount⟩
    let updated := edges ++ [newEdge]
    match detect_cycle edges newEdge with
    | none =>
      let nets := compute_nets updated
      (⟨dictSet graphs0 groupId updated, dictSet s.netsCache groupId nets⟩, .ok nets)
    | some path =>
      match reduce_cycle updated path with
      | none => (⟨graphs0, s.netsCache⟩, .error "InconsistentGraph")
      | some finalEdges =>
        let nets := compute_nets finalEdges
        (⟨dictSet graphs0 groupId finalEdges, dictSet s.netsCache groupId nets⟩, .ok nets)

/-- Is there an edge `a → b`? -/
def hasEdge (edges : List Edge) (a b : String) : Bool :=
  edges.any (fun e => e.debtor = a && e.creditor = b)

/-- `p` is a closed directed walk (length ≥ 2, first = last, every
consecutive pair backed by an edge); a graph admitting one contains a
directed cycle. -/
def isClosedWalk (edges : List Edge) (p : List String) : Bool :=
  decide (2 ≤ p.length) && p.head? == p.getLast?
    && (p.zip p.tail).all (fun q => hasEdge edges q.1 q.2)

/-- C7: `add_iou` with a non-positive amount or a self-loop fails with
`InvalidInput` (a `ValueError`) and leaves the store completely unchanged:
no edge is added, no graph is created, and the nets cache is untouched,
because both validation checks run before `_graphs.setdefault` and before any
mutation. -/
theorem add_iou_invalid_input_preserves_store
    (s : Store) (groupId debtor creditor : String) (amount : ℚ)
    (h : amount ≤ 0 ∨ debtor = creditor) :
    (add_iou s groupId debtor creditor amount).1 = s ∧
    (add_iou s groupId debtor creditor amount).2.isOk = false := by
  rcases h with h | h
  · simp [add_iou, h, Except.isOk, Except.toBool]
  · rcases le_or_lt amount 0 with h0 | h0
    · simp [add_iou, h0, Except.isOk, Except.toBool]
    · simp [add_iou, not_le.mpr h0, h, Except.isOk, Except.toBool]

theorem add_iou_invalid_input_preserves_store_witness :
    ((-3 : ℚ) ≤ 0 ∨ "A" = "B") ∧
    ((add_iou ⟨[("g", [⟨"A", "B", 5⟩])], []⟩ "g" "A" "B" (-3)).1
        = ⟨[("g", [⟨"A", "B", 5⟩])], []⟩ ∧
      (add_iou ⟨[("g", [⟨"A", "B", 5⟩])], []⟩ "g" "A" "B" (-3)).2.isOk = false) :=
  ⟨Or.inl (by norm_num),
    add_iou_invalid_input_preserves_store ⟨[("g", [⟨"A", "B", 5⟩])], []⟩ "g" "A" "B" (-3)
      (Or.inl (by norm_num))⟩

/-- C4 (counterexample): `add_iou(g, A, B, 10)` then `add_iou(g, B, A, 10)`
does *not* leave entries of value 0 for A and B in the returned mapping — the
cycle reduction removes both edges, `compute_nets` of the empty edge list is
the empty dict, and A and B have no entry at all (`lookup` is `none`, not
`some 0`). -/
theorem add_iou_roundtrip_zero_entries_false :
    ¬ ∀ nets : Dict,
        (add_iou (add_iou ⟨[], []⟩ "g" "A" "B" 10).1 "g" "B" "A" 10).2 = Except.ok nets →
        nets.lookup "A" = some 0 ∧ nets.lookup "B" = some 0 := by
  intro h
  have h2 := h [] (by with_unfolding_all rfl)
  exact absurd h2.1 (by decide)

/-- C4 (amended): `add_iou(g, A, B, 10)` then `add_iou(g, B, A, 10)` leaves
zero edges for the pair (the group's edge list is empty), and the returned
mapping is empty: A and B have no entry (the spec's "never transacted"
representation), so their net balances read with a default of 0 are 0. -/
theorem add_iou_roundtrip_cancels :
    (getD (add_iou (add_iou ⟨[], []⟩ "g" "A" "B" 10).1 "g" "B" "A" 10).1.graphs "g" [] = []) ∧
    (add_iou (add_iou ⟨[], []⟩ "g" "A" "B" 10).1 "g" "B" "A" 10).2 = Except.ok ([] : Dict) ∧
    ([] : Dict).lookup "A" = none ∧ ([] : Dict).lookup "B" = none ∧
    getD ([] : Dict) "A" 0 = 0 ∧ getD ([] : Dict) "B" 0 = 0 :=
  ⟨by with_unfolding_all rfl, by with_unfolding_all rfl, by decide, by decide, by decide,
    by decide⟩

/-- C10: starting from edges `B→A (5)`, `B→C (10)`, `C→A (10)`, inserting
`A→B (10)` closes *two* directed cycles (`A→B→A` and `A→B→C→A`), but
`add_iou` reduces only along the single BFS-discovered path `B → A`, so the
resulting graph `[B→C (10), C→A (10), A→B (5)]` still contains the directed
cycle `A→B→C→A`: one insertion does not restore acyclicity. -/
theorem add_iou_single_path_reduction_leaves_cycle :
    let s0 : Store := ⟨[], []⟩
    let s3 := (add_iou (add_iou (add_iou s0 "g" "B" "A" 5).1 "g" "B" "C" 10).1
      "g" "C" "A" 10).1
    let before := getD s3.graphs "g" []
    let r := add_iou s3 "g" "A" "B" 10
    (before = [⟨"B", "A", 5⟩, ⟨"B", "C", 10⟩, ⟨"C", "A", 10⟩]) ∧
    (isClosedWalk (before ++ [⟨"A", "B", 10⟩]) ["A", "B", "A"] = true) ∧
    (isClosedWalk (before ++ [⟨"A", "B", 10⟩]) ["A", "B", "C", "A"] = true) ∧
    (detect_cycle before ⟨"A", "B", 10⟩ = some ["B", "A", "B"]) ∧
    (getD r.1.graphs "g" [] = [⟨"B", "C", 10⟩, ⟨"C", "A", 10⟩, ⟨"A", "B", 5⟩]) ∧
    (isClosedWalk (getD r.1.graphs "g" []) ["A", "B", "C", "A"] = true) := by
  refine ⟨?_, ?_, ?_, ?_, ?_, ?_⟩ <;> with_unfolding_all decide

/-! ## Properties of `reduce_cycle` (C3) -/

/-- Total outstanding debt: the sum of all edge amounts. -/
def sumAmounts (l : List Edge) : ℚ := (l.map (·.amount)).sum

theorem pickIndex_spec {edges : List Edge} {used : List Nat} {p : String × String} {i : Nat}
    (h : pickIndex edges used p = some i) : i < edges.length ∧ i ∉ used := by
  have hmem := List.mem_of_find?_eq_some h
  have hp := List.find?_some h
  simp only [Bool.and_eq_true, decide_eq_true_eq] at hp
  exact ⟨List.mem_range.mp hmem, hp.1⟩

theorem cycleIndices_spec (edges : List Edge) (ps : List (String × String)) :
    ∀ (used idxs : List Nat),
      cycleIndices edges ps used = some idxs →
      idxs.length = ps.length ∧ idxs.Nodup ∧ ∀ i ∈ idxs, i < edges.length ∧ i ∉ used := by
  induction ps with
  | nil =>
    intro used idxs h
    simp only [cycleIndices, Option.some.injEq] at h
    subst h
    simp
  | cons p ps ih =>
    intro used idxs h
    simp only [cycleIndices] at h
    cases hpick : pickIndex edges used p with
    | none => rw [hpick] at h; exact absurd h (by simp)
    | some i =>
      rw [hpick] at h
      have h' : Option.map (fun x => i :: x) (cycleIndices edges ps (used ++ [i]))
          = some idxs := h
      cases hrec : cycleIndices edges ps (used ++ [i]) with
      | none => rw [hrec] at h'; exact absurd h' (by simp)
      | some rest =>
        rw [hrec] at h'
        simp only [Option.map_some', Option.some.injEq] at h'
        subst h'
        obtain ⟨hl, hnd, hall⟩ := ih (used ++ [i]) rest hrec
        obtain ⟨hilt, hiu⟩ := pickIndex_spec hpick
        refine ⟨by simp [hl], ?_, ?_⟩
        · exact List.nodup_cons.mpr ⟨fun hmem => (hall i hmem).2 (by simp), hnd⟩
        · intro j hj
          rcases List.mem_cons.mp hj with rfl | hj
          · exact ⟨hilt, hiu⟩
          · obtain ⟨hjl, hju⟩ := hall j hj
            exact ⟨hjl, fun hju' => hju (by simp [hju'])⟩

theorem foldl_min_le_init (l : List ℚ) (a : ℚ) : l.foldl min a ≤ a := by
  induction l generalizing a with
  | nil => exact le_refl a
  | cons x xs ih => exact le_trans (ih (min a x)) (min_le_left a x)

theorem foldl_min_le_mem (l : List ℚ) (x : ℚ) :
    ∀ a : ℚ, x ∈ l → l.foldl min a ≤ x := by
  induction l with
  | nil => intro a hx; exact absurd hx (List.not_mem_nil x)
  | cons y ys ih =>
    intro a hx
    rcases List.mem_cons.mp hx with rfl | hx
    · exact le_trans (foldl_min_le_init ys (min a x)) (min_le_right a x)
    · exact ih (min a y) hx

theorem lt_foldl_min (l : List ℚ) (b : ℚ) :
    ∀ a : ℚ, b < a → (∀ x ∈ l, b < x) → b < l.foldl min a := by
  induction l with
  | nil => intro a ha _; exact ha
  | cons x xs ih =>
    intro a ha hl
    exact ih (min a x) (lt_min ha (hl x (List.mem_cons_self x xs)))
      fun y hy => hl y (List.mem_cons_of_mem x hy)

theorem listMin_le_mem {l : List ℚ} {x : ℚ} (hx : x ∈ l) : listMin l ≤ x := by
  cases l with
  | nil => exact absurd hx (List.not_mem_nil x)
  | cons a rest =>
    rcases List.mem_cons.mp hx with rfl | hm
    · exact foldl_min_le_init rest x
    · exact foldl_min_le_mem rest x a hm

theorem listMin_pos {l : List ℚ} (hne : l ≠ []) (hl : ∀ x ∈ l, 0 < x) : 0 < listMin l := by
  cases l with
  | nil => exact absurd rfl hne
  | cons a rest =>
    exact lt_foldl_min rest 0 a (hl a (List.mem_cons_self a rest))
      fun y hy => hl y (List.mem_cons_of_mem a hy)

theorem amount_mem_cycleAmounts {edges : List Edge} {idxs : List Nat} {i : Nat}
    (hi : i ∈ idxs) (hlt : i < edges.length) :
    edges[i].amount ∈ idxs.filterMap (fun j => edges[j]?.map (·.amount)) :=
  List.mem_filterMap.mpr ⟨i, hi, by rw [List.getElem?_eq_getElem hlt]; rfl⟩

theorem cycleMin_le {edges : List Edge} {idxs : List Nat} {i : Nat}
    (hi : i ∈ idxs) (hlt : i < edges.length) :
    cycleMin edges idxs ≤ edges[i].amount :=
  listMin_le_mem (amount_mem_cycleAmounts hi hlt)

theorem cycleMin_pos {edges : List Edge} {idxs : List Nat}
    (hpos : ∀ e ∈ edges, 0 < e.amount) (hne : idxs ≠ [])
    (hvalid : ∀ i ∈ idxs, i < edges.length) : 0 < cycleMin edges idxs := by
  have hposall : ∀ x ∈ idxs.filterMap (fun j => edges[j]?.map (·.amount)), 0 < x := by
    intro x hx
    obtain ⟨j, hj, hfx⟩ := List.mem_filterMap.mp hx
    rw [List.getElem?_eq_getElem (hvalid j hj)] at hfx
    simp only [Option.map_some', Option.some.injEq] at hfx
    exact hfx ▸ hpos _ (List.getElem_mem _)
  obtain ⟨i0, rest0, hi0⟩ : ∃ i0 rest0, idxs = i0 :: rest0 := by
    cases idxs with
    | nil => exact absurd rfl hne
    | cons a b => exact ⟨a, b, rfl⟩
  have hmem0 := amount_mem_cycleAmounts (hi0 ▸ List.mem_cons_self i0 rest0)
    (hvalid i0 (hi0 ▸ List.mem_cons_self i0 rest0))
  exact listMin_pos (fun h0 => by rw [h0] at hmem0; exact absurd hmem0 (List.not_mem_nil _))
    hposall

theorem sum_map_sub_eq {α : Type} (l : List α) (f g : α → ℚ) :
    (l.map (fun x => f x - g x)).sum = (l.map f).sum - (l.map g).sum := by
  induction l with
  | nil => simp
  | cons x xs ih => simp only [List.map_cons, List.sum_cons, ih]; ring

theorem sumAmounts_filterMap {α : Type} (F : α → Option Edge) (l : List α) :
    sumAmounts (l.filterMap F) = (l.map (fun x => ((F x).map (·.amount)).getD 0)).sum := by
  induction l with
  | nil => rfl
  | cons x xs ih =>
    cases hF : F x with
    | none =>
      simp only [List.filterMap_cons, hF, List.map_cons, List.sum_cons, Option.map_none',
        Option.getD_none, ih]
      ring
    | some e =>
      simp only [sumAmounts, List.filterMap_cons, hF, List.map_cons, List.sum_cons,
        Option.map_some', Option.getD_some] at ih ⊢
      rw [ih]

/-- C3: for every edge list with positive amounts and every closed cycle path
all of whose consecutive pairs are matched to edges (first unused match, as
the code does), `reduce_cycle` succeeds and returns exactly the pass that
subtracts the minimum matched amount `minA` from each matched edge, drops any
edge whose remaining amount is ≤ 1e-9 and keeps unmatched edges unchanged;
`minA` is positive, no resulting edge amount is negative (all stay strictly
positive), and the total outstanding debt decreases by at least `minA`. -/
theorem reduce_cycle_spec (edges : List Edge) (cyclePath : List String) (idxs : List Nat)
    (hpos : ∀ e ∈ edges, 0 < e.amount)
    (hlen : 2 ≤ cyclePath.length)
    (hclosed : cyclePath.head? = cyclePath.getLast?)
    (hidx : cycleIndices edges (cyclePath.zip cyclePath.tail) [] = some idxs) :
    0 < cycleMin edges idxs ∧
    reduce_cycle edges cyclePath = some (reducedEdges edges idxs (cycleMin edges idxs)) ∧
    (∀ e ∈ reducedEdges edges idxs (cycleMin edges idxs), 0 < e.amount) ∧
    sumAmounts (reducedEdges edges idxs (cycleMin edges idxs)) + cycleMin edges idxs
      ≤ sumAmounts edges := by
  obtain ⟨hlenIdx, hnodup, hall⟩ :=
    cycleIndices_spec edges (cyclePath.zip cyclePath.tail) [] idxs hidx
  have hvalid : ∀ i ∈ idxs, i < edges.length := fun i hi => (hall i hi).1
  have hpairs_len : (cyclePath.zip cyclePath.tail).length = cyclePath.length - 1 := by
    rw [List.length_zip, List.length_tail]
    omega
  have hidxs_ne : idxs ≠ [] := by
    intro h0
    rw [h0] at hlenIdx
    simp only [List.length_nil] at hlenIdx
    omega
  have hminpos : 0 < cycleMin edges idxs := cycleMin_pos hpos hidxs_ne hvalid
  have hEpos : (0 : ℚ) < EPSILON := by norm_num [EPSILON]
  have hposEnum : ∀ ie ∈ edges.enum, 0 < (ie : Nat × Edge).2.amount := by
    intro ie hie
    obtain ⟨i, e⟩ := ie
    exact hpos e (List.getElem?_mem (List.mk_mem_enum_iff_getElem?.mp hie))
  have hredpos : ∀ e ∈ reducedEdges edges idxs (cycleMin edges idxs), 0 < e.amount := by
    intro e he
    obtain ⟨ie, hie, hfe⟩ := List.mem_filterMap.mp he
    by_cases hmem : ie.1 ∈ idxs
    · rw [if_pos hmem] at hfe
      by_cases hgt : ie.2.amount - cycleMin edges idxs > EPSILON
      · rw [if_pos hgt] at hfe
        simp only [Option.some.injEq] at hfe
        subst hfe
        exact lt_trans hEpos hgt
      · rw [if_neg hgt] at hfe
        exact absurd hfe (by simp)
    · rw [if_neg hmem] at hfe
      simp only [Option.some.injEq] at hfe
      subst hfe
      exact hposEnum ie hie
  refine ⟨hminpos, ?_, hredpos, ?_⟩
  · have h1 : ¬ (cyclePath.length < 2 ∨ cyclePath.head? ≠ cyclePath.getLast?) := by
      push_neg
      exact ⟨by omega, hclosed⟩
    have h2 : cyclePath.zip cyclePath.tail ≠ [] := by
      intro h0
      rw [h0] at hpairs_len
      simp only [List.length_nil] at hpairs_len
      omega
    simp only [reduce_cycle, if_neg h1, if_neg h2, hidx, if_neg (not_le.mpr hminpos)]
  · -- the sum of amounts drops by at least the (positive) cycle minimum
    have hsum :
        sumAmounts (reducedEdges edges idxs (cycleMin edges idxs))
          = (edges.enum.map (fun ie =>
              (((fun ie : Nat × Edge =>
                if ie.1 ∈ idxs then
                  if ie.2.amount - cycleMin edges idxs > EPSILON then
                    some { ie.2 with amount := ie.2.amount - cycleMin edges idxs }
                  else none
                else some ie.2) ie).map (·.amount)).getD 0)).sum :=
      sumAmounts_filterMap _ _
    have hedges : sumAmounts edges = (edges.enum.map (fun ie => ie.2.amount)).sum := by
      unfold sumAmounts
      conv_lhs => rw [← List.enum_map_snd edges]
      rw [List.map_map]
      rfl
    have hlossnn : ∀ y ∈ edges.enum.map (fun ie =>
        ie.2.amount -
          (((fun ie : Nat × Edge =>
            if ie.1 ∈ idxs then
              if ie.2.amount - cycleMin edges idxs > EPSILON then
                some { ie.2 with amount := ie.2.amount - cycleMin edges idxs }
              else none
            else some ie.2) ie).map (·.amount)).getD 0), 0 ≤ y := by
      intro y hy
      obtain ⟨ie, hie, hfy⟩ := List.mem_map.mp hy
      subst hfy
      by_cases hmem : ie.1 ∈ idxs
      · by_cases hgt : ie.2.amount - cycleMin edges idxs > EPSILON
        · simp only [if_pos hmem, if_pos hgt, Option.map_some', Option.getD_some]
          linarith
        · simp only [if_pos hmem, if_neg hgt, Option.map_none', Option.getD_none]
          linarith [hposEnum ie hie]
      · simp only [if_neg hmem, Option.map_some', Option.getD_some]
        linarith
    obtain ⟨i0, rest0, hi0⟩ : ∃ i0 rest0, idxs = i0 :: rest0 := by
      cases idxs with
      | nil => exact absurd rfl hidxs_ne
      | cons a b => exact ⟨a, b, rfl⟩
    have hi0mem : i0 ∈ idxs := hi0 ▸ List.mem_cons_self i0 rest0
    have hi0lt : i0 < edges.length := hvalid i0 hi0mem
    have hmem0 : ((i0, edges[i0]) : Nat × Edge) ∈ edges.enum :=
      List.mk_mem_enum_iff_getElem?.mpr (List.getElem?_eq_getElem hi0lt)
    have hloss0 : cycleMin edges idxs ≤
        edges[i0].amount -
          (((fun ie : Nat × Edge =>
            if ie.1 ∈ idxs then
              if ie.2.amount - cycleMin edges idxs > EPSILON then
                some { ie.2 with amount := ie.2.amount - cycleMin edges idxs }
              else none
            else some ie.2) (i0, edges[i0])).map (·.amount)).getD 0 := by
      by_cases hgt : edges[i0].amount - cycleMin edges idxs > EPSILON
      · simp only [if_pos hi0mem, if_pos hgt, Option.map_some', Option.getD_some]
        linarith
      · simp only [if_pos hi0mem, if_neg hgt, Option.map_none', Option.getD_none]
        linarith [cycleMin_le hi0mem hi0lt]
    have hkey : cycleMin edges idxs ≤ (edges.enum.map (fun ie =>
        ie.2.amount -
          (((fun ie : Nat × Edge =>
            if ie.1 ∈ idxs then
              if ie.2.amount - cycleMin edges idxs > EPSILON then
                some { ie.2 with amount := ie.2.amount - cycleMin edges idxs }
              else none
            else some ie.2) ie).map (·.amount)).getD 0)).sum :=
      le_trans hloss0 (List.single_le_sum hlossnn _ (List.mem_map_of_mem _ hmem0))
    rw [sum_map_sub_eq] at hkey
    rw [hsum, hedges]
    linarith

theorem reduce_cycle_spec_witness :
    ((∀ e ∈ ([⟨"A", "B", 10⟩, ⟨"B", "A", 4⟩] : List Edge), 0 < e.amount) ∧
      2 ≤ (["A", "B", "A"] : List String).length ∧
      (["A", "B", "A"] : List String).head? = (["A", "B", "A"] : List String).getLast? ∧
      cycleIndices [⟨"A", "B", 10⟩, ⟨"B", "A", 4⟩]
        ((["A", "B", "A"] : List String).zip (["A", "B", "A"] : List String).tail) []
        = some [0, 1]) ∧
    (0 < cycleMin [⟨"A", "B", 10⟩, ⟨"B", "A", 4⟩] [0, 1] ∧
      reduce_cycle [⟨"A", "B", 10⟩, ⟨"B", "A", 4⟩] ["A", "B", "A"]
        = some (reducedEdges [⟨"A", "B", 10⟩, ⟨"B", "A", 4⟩] [0, 1]
            (cycleMin [⟨"A", "B", 10⟩, ⟨"B", "A", 4⟩] [0, 1])) ∧
      (∀ e ∈ reducedEdges [⟨"A", "B", 10⟩, ⟨"B", "A", 4⟩] [0, 1]
          (cycleMin [⟨"A", "B", 10⟩, ⟨"B", "A", 4⟩] [0, 1]), 0 < e.amount) ∧
      sumAmounts (reducedEdges [⟨"A", "B", 10⟩, ⟨"B", "A", 4⟩] [0, 1]
          (cycleMin [⟨"A", "B", 10⟩, ⟨"B", "A", 4⟩] [0, 1]))
          + cycleMin [⟨"A", "B", 10⟩, ⟨"B", "A", 4⟩] [0, 1]
        ≤ sumAmounts [⟨"A", "B", 10⟩, ⟨"B", "A", 4⟩]) :=
  ⟨⟨by with_unfolding_all decide, by with_unfolding_all decide, by with_unfolding_all decide,
      by with_unfolding_all decide⟩,
    reduce_cycle_spec [⟨"A", "B", 10⟩, ⟨"B", "A", 4⟩] ["A", "B", "A"] [0, 1]
      (by with_unfolding_all decide) (by with_unfolding_all decide)
      (by with_unfolding_all decide) (by with_unfolding_all decide)⟩

/-! ## Settlement proposals (`src/services/settlement.py`)

Timestamps (`created_at`, `updated_at`, the `CancelAfter` field of the escrow
payload) are real time and are not part of the embedded state; no claim reads
them.  The escrow-create transaction payload is a pure function of the
payment and the timestamp and is carried only to the submission stub, so it
is likewise omitted from `EscrowInstruction`.  The nondeterministic transaction
hashes produced by the submission and finish stubs are supplied as function
parameters. -/

/-- `REQUIRED_SIGNATURES = 2`. -/
def REQUIRED_SIGNATURES : Nat := 2

inductive Status where
  | pending_signatures
  | ready_to_broadcast
  | broadcast
  | completed
deriving DecidableEq, Repr

/-- How far along the linear lifecycle a status is (for stating forward-only
movement). -/
def statusRank : Status → Nat
  | .pending_signatures => 0
  | .ready_to_broadcast => 1
  | .broadcast => 2
  | .completed => 3

structure Payment where
  payer : String
  payee : String
  amount : ℚ
deriving DecidableEq, Repr

structure EscrowInstruction where
  payment : Payment
  txHash : Option String
  confirmed : Bool
  executed : Bool
deriving DecidableEq, Repr

structure SettlementProposal where
  proposalId : String
  groupId : String
  payments : List Payment
  escrows : List EscrowInstruction
  signatures : List (String × String)
  status : Status
deriving DecidableEq, Repr

/-- `add_signature`: record `signatures[signer] = signature` (overwrite keeps
the key's position, like a Python dict), then, whenever the signature count
meets the threshold, set the status to `ready_to_broadcast` — unconditionally,
whatever the current status is. -/
def add_signature (p : SettlementProposal) (signer signature : String) :
    SettlementProposal :=
  let sigs := dictSet p.signatures signer signature
  { p with
    signatures := sigs,
    status := if REQUIRED_SIGNATURES ≤ sigs.length then Status.ready_to_broadcast
      else p.status }

/-- `broadcast_settlement`: allowed from `ready_to_broadcast` or `broadcast`;
submit every unconfirmed escrow (the stub always answers with a fresh hash
and `confirmed = False`, here `submitHash i` for the escrow at position `i`),
then set the status to `broadcast`.  Returns the submitted hashes. -/
def broadcast_settlement (submitHash : Nat → String) (p : SettlementProposal) :
    Except String (SettlementProposal × List String) :=
  if p.status = Status.ready_to_broadcast ∨ p.status = Status.broadcast then
    Except.ok
      ({ p with
          escrows := p.escrows.enum.map (fun ie =>
            if ie.2.confirmed then ie.2
            else { ie.2 with txHash := some (submitHash ie.1), confirmed := false }),
          status := Status.broadcast },
        (p.escrows.enum.filter (fun ie => !ie.2.confirmed)).map (fun ie => submitHash ie.1))
  else Except.error "not ready to broadcast"

/-- `execute_escrows`: allowed only from `broadcast`; finish every escrow that
has a tx hash (`not escrow.tx_hash` in Python — the stub hashes are nonempty,
so falsiness coincides with absence) and is not yet executed, marking it
executed; afterwards set status to `completed` only when at least one escrow
was finished in this pass and every escrow is now executed.  Returns the
finish hashes (`fin h` for input hash `h`). -/
def execute_escrows (fin : String → String) (p : SettlementProposal) :
    Except String (SettlementProposal × List String) :=
  if p.status ≠ Status.broadcast then Except.error "must be broadcast before execution"
  else
    let es := p.escrows.map (fun e =>
      if e.executed ∨ e.txHash = none then e else { e with executed := true })
    let hashes := p.escrows.filterMap (fun e =>
      if e.executed ∨ e.txHash = none then none else e.txHash.map fin)
    Except.ok
      ({ p with
          escrows := es,
          status := if !hashes.isEmpty && es.all (·.executed) then Status.completed
            else Status.broadcast },
        hashes)

/-- `debtors = [... for acct, amt in nets.items() if amt > EPSILON]`. -/
def debtorsOf (nets : Dict) : List (String × ℚ) :=
  nets.filterMap (fun ua => if ua.2 > EPSILON then some (ua.1, ua.2) else none)

/-- `creditors = [... if amt < -EPSILON]`, stored with the positive amount. -/
def creditorsOf (nets : Dict) : List (String × ℚ) :=
  nets.filterMap (fun ua => if ua.2 < -EPSILON then some (ua.1, -ua.2) else none)

/-- Insert into a descending-by-amount list, after every element with an
amount ≥ this one: the result of inserting every element of a list this way
is exactly Python's stable `sort(key=amount, reverse=True)`. -/
def insertDesc (x : String × ℚ) : List (String × ℚ) → List (String × ℚ)
  | [] => [x]
  | y :: ys => if y.2 ≤ x.2 then x :: y :: ys else y :: insertDesc x ys

/-- Stable descending sort by amount (insertion sort). -/
def sortDesc (l : List (String × ℚ)) : List (String × ℚ) := l.foldr insertDesc []

/-- The `while debtor_idx < len(debtors) and creditor_idx < ...` loop of
`_build_payments`, with the index-walked arrays rendered as the suffixes
starting at the indices (the current heads carry the mutated remainders).
Each iteration pays `min` of the two head remainders and advances past any
head whose remainder falls to ≤ EPSILON.  When the debtor's remainder stays
above EPSILON the creditor's remainder is exactly 0 (the payment is the
minimum of the two), so the creditor advances; the Python loop's fourth
combination (neither index advances) is unreachable and is collapsed into
that branch. -/
def settleGoFuel : Nat → List (String × ℚ) → List (String × ℚ) → List Payment
  | 0, _, _ => []
  | _ + 1, [], _ => []
  | _ + 1, _ :: _, [] => []
  | fuel + 1, (ud, d) :: ds, (uc, c) :: cs =>
    let a := min d c
    let d' := d - a
    let c' := c - a
    Payment.mk ud uc a ::
      (if d' ≤ EPSILON then
        if c' ≤ EPSILON then settleGoFuel fuel ds cs
        else settleGoFuel fuel ds ((uc, c') :: cs)
      else settleGoFuel fuel ((ud, d') :: ds) cs)

/-- The loop with its provably sufficient fuel: every iteration consumes one
unit of fuel and shrinks the combined length of the two lists by at least
one (the emitting side always advances at least one index), so the
fuel-exhausted branch is unreachable from this entry point and `settleGo` is
exactly the Python loop. -/
def settleGo (ds cs : List (String × ℚ)) : List Payment :=
  settleGoFuel (ds.length + cs.length) ds cs

/-- `_build_payments` from `src/services/settlement.py`. -/
def build_payments (nets : Dict) : List Payment :=
  let debtors := debtorsOf nets
  let creditors := creditorsOf nets
  if debtors = [] ∨ creditors = [] then []
  else settleGo (sortDesc debtors) (sortDesc creditors)

/-- `_build_escrow_instruction` (the transaction payload and timestamps are
outside the embedding). -/
def build_escrow_instruction (payment : Payment) : EscrowInstruction :=
  { payment := payment, txHash := none, confirmed := false, executed := false }

/-- `propose_settlement`, with the freshly generated uuid and the cached nets
supplied as arguments. -/
def propose_settlement (proposalId groupId : String) (nets : Dict) :
    Except String SettlementProposal :=
  if nets = [] then Except.error "No balances available"
  else
    let payments := build_payments nets
    if payments = [] then Except.error "All balances are already settled"
    else
      Except.ok
        { proposalId := proposalId, groupId := groupId, payments := payments,
          escrows := payments.map build_escrow_instruction,
          signatures := [], status := Status.pending_signatures }

/-- Total projection of an `Except` result (used to phrase concrete runs
without existential quantifiers). -/
def exceptD {α : Type} (r : Except String α) (d : α) : α :=
  match r with
  | Except.ok x => x
  | Except.error _ => d

/-- C1 is violated by the code: `add_signature` sets the status to
`ready_to_broadcast` whenever the signature count meets the threshold,
regardless of the current status.  In this fully reachable run, a proposal
for nets `{A: 30, B: -10, C: -20}` collects two signatures, is broadcast
(status `broadcast`), and then a third `add_signature` call moves the status
*backward* to `ready_to_broadcast` (`statusRank` strictly decreases). -/
theorem add_signature_regresses_status :
    let dummy : SettlementProposal := ⟨"", "", [], [], [], Status.pending_signatures⟩
    let r0 := propose_settlement "p" "g" [("A", 30), ("B", -10), ("C", -20)]
    let p0 := exceptD r0 dummy
    let p1 := add_signature (add_signature p0 "s1" "sigA") "s2" "sigB"
    let r2 := broadcast_settlement (fun _ => "HASH") p1
    let p2 := (exceptD r2 (dummy, [])).1
    let p3 := add_signature p2 "s3" "sigC"
    r0.isOk = true ∧
    p0.status = Status.pending_signatures ∧
    p1.status = Status.ready_to_broadcast ∧
    r2.isOk = true ∧
    p2.status = Status.broadcast ∧
    p3.status = Status.ready_to_broadcast ∧
    statusRank p3.status < statusRank p2.status := by
  refine ⟨?_, ?_, ?_, ?_, ?_, ?_, ?_⟩ <;> with_unfolding_all decide

/-- C6 (counterexample): a proposal in status `broadcast` whose single escrow
is already executed (a state reachable through the backward `add_signature`
transition of C1 followed by a re-broadcast).  `execute_escrows` succeeds,
finishes nothing, and — although after the pass every escrow is executed —
leaves the status at `broadcast` instead of `completed`, because the code
additionally requires that this pass executed at least one escrow. -/
theorem execute_escrows_completed_clause_false :
    (execute_escrows (fun h => "FIN" ++ h)
        ⟨"p", "g", [⟨"A", "B", 1⟩], [⟨⟨"A", "B", 1⟩, some "H", false, true⟩],
          [("s1", "x"), ("s2", "y")], Status.broadcast⟩
      = Except.ok
          (⟨"p", "g", [⟨"A", "B", 1⟩], [⟨⟨"A", "B", 1⟩, some "H", false, true⟩],
            [("s1", "x"), ("s2", "y")], Status.broadcast⟩, [])) ∧
    ([⟨⟨"A", "B", 1⟩, some "H", false, true⟩] : List EscrowInstruction).all (·.executed)
      = true ∧
    Status.broadcast ≠ Status.completed :=
  ⟨by with_unfolding_all rfl, by decide, by decide⟩

theorem execute_hashes_length (fin : String → String) (es : List EscrowInstruction) :
    (es.filterMap (fun e =>
        if e.executed ∨ e.txHash = none then none else e.txHash.map fin)).length
      = (es.filter (fun e => e.txHash.isSome && !e.executed)).length := by
  induction es with
  | nil => rfl
  | cons e es ih =>
    by_cases he : e.executed
    · simp [List.filterMap_cons, List.filter_cons, he, ih]
    · cases htx : e.txHash with
      | none => simp [List.filterMap_cons, List.filter_cons, he, htx, ih]
      | some hsh => simp [List.filterMap_cons, List.filter_cons, he, htx, ih]

/-- C6 (amended): `execute_escrows` fails with `NotBroadcast` exactly when the
status is not `broadcast`; otherwise it succeeds, submits one finish request
for every escrow that has a tx hash and is not yet executed (one returned
finish hash each), marks exactly those escrows executed while leaving every
other escrow and all other fields unchanged, and sets the status to
`completed` if and only if this pass executed at least one escrow and every
escrow of the proposal is now executed (otherwise the status stays
`broadcast`). -/
theorem execute_escrows_spec (fin : String → String) (p : SettlementProposal) :
    ((execute_escrows fin p).isOk = true ↔ p.status = Status.broadcast) ∧
    (∀ p' hs, execute_escrows fin p = Except.ok (p', hs) →
      p'.proposalId = p.proposalId ∧ p'.groupId = p.groupId ∧
      p'.payments = p.payments ∧ p'.signatures = p.signatures ∧
      List.Forall₂ (fun e e' : EscrowInstruction =>
        (e.txHash.isSome ∧ ¬e.executed → e' = { e with executed := true }) ∧
        (¬(e.txHash.isSome ∧ ¬e.executed) → e' = e)) p.escrows p'.escrows ∧
      hs.length
        = (p.escrows.filter (fun e => e.txHash.isSome && !e.executed)).length ∧
      (p'.status = Status.completed ↔ hs ≠ [] ∧ p'.escrows.all (·.executed) = true) ∧
      (p'.status = Status.completed ∨ p'.status = Status.broadcast)) := by
  constructor
  · unfold execute_escrows
    by_cases h : p.status = Status.broadcast
    · simp [h, Except.isOk, Except.toBool]
    · simp [h, Except.isOk, Except.toBool]
  · intro p' hs hok
    unfold execute_escrows at hok
    by_cases h : p.status = Status.broadcast
    · rw [if_neg (by simp [h])] at hok
      simp only [Except.ok.injEq, Prod.mk.injEq] at hok
      obtain ⟨hp', hhs⟩ := hok
      subst hp'
      subst hhs
      refine ⟨rfl, rfl, rfl, rfl, ?_, ?_, ?_, ?_⟩
      · rw [List.forall₂_map_right_iff]
        apply List.forall₂_same.mpr
        intro e _
        constructor
        · intro ⟨hsome, hnexec⟩
          rw [if_neg]
          push_neg
          exact ⟨hnexec, fun hn => by rw [hn] at hsome; exact absurd hsome (by simp)⟩
        · intro hnot
          rw [not_and_or] at hnot
          rcases hnot with hnot | hnot
        
          · rw [Option.not_isSome_iff_eq_none] at hnot
            rw [if_pos (Or.inr hnot)]
          · rw [not_not] at hnot
            rw [if_pos (Or.inl hnot)]
      · exact execute_hashes_length fin p.escrows
      · have hbiff : (!(p.escrows.filterMap (fun e =>
              if e.executed ∨ e.txHash = none then none else e.txHash.map fin)).isEmpty
            && (p.escrows.map (fun e =>
              if e.executed ∨ e.txHash = none then e else { e with executed := true })).all
              (·.executed)) = true
            ↔ (p.escrows.filterMap (fun e =>
                if e.executed ∨ e.txHash = none then none else e.txHash.map fin)) ≠ []
              ∧ (p.escrows.map (fun e =>
                if e.executed ∨ e.txHash = none then e else { e with executed := true })).all
                (·.executed) = true := by
          simp [List.isEmpty_iff]
        by_cases hb : (!(p.escrows.filterMap (fun e =>
              if e.executed ∨ e.txHash = none then none else e.txHash.map fin)).isEmpty
            && (p.escrows.map (fun e =>
              if e.executed ∨ e.txHash = none then e else { e with executed := true })).all
              (·.executed)) = true
        · rw [if_pos hb]
          exact iff_of_true rfl (hbiff.mp hb)
        · rw [if_neg hb]
          exact iff_of_false (by simp) fun hc => hb (hbiff.mpr hc)
      · by_cases hb : (!(p.escrows.filterMap (fun e =>
              if e.executed ∨ e.txHash = none then none else e.txHash.map fin)).isEmpty
            && (p.escrows.map (fun e =>
              if e.executed ∨ e.txHash = none then e else { e with executed := true })).all
              (·.executed)) = true
        · rw [if_pos hb]; exact Or.inl rfl
        · rw [if_neg hb]; exact Or.inr rfl
    · rw [if_pos (by simp [h])] at hok
      exact absurd hok (by simp)

/-! ## Properties of `_build_payments` (C5) -/

/-- Total amount of a payment list. -/
def paymentsSum (l : List Payment) : ℚ := (l.map (·.amount)).sum

/-- Total amount on one side (debtors or creditors). -/
def sideSum (l : List (String × ℚ)) : ℚ := (l.map (·.2)).sum

/-- The loop of `settleGoFuel` additionally recording, with each emitted
payment, the payer's and payee's remaining amounts at the moment of
emission (same recursion, same fuel). -/
def settleTraceFuel : Nat → List (String × ℚ) → List (String × ℚ) →
    List (Payment × ℚ × ℚ)
  | 0, _, _ => []
  | _ + 1, [], _ => []
  | _ + 1, _ :: _, [] => []
  | fuel + 1, (ud, d) :: ds, (uc, c) :: cs =>
    let a := min d c
    let d' := d - a
    let c' := c - a
    (Payment.mk ud uc a, d, c) ::
      (if d' ≤ EPSILON then
        if c' ≤ EPSILON then settleTraceFuel fuel ds cs
        else settleTraceFuel fuel ds ((uc, c') :: cs)
      else settleTraceFuel fuel ((ud, d') :: ds) cs)

/-- The emission trace of the matching loop on its actual inputs. -/
def settleTrace (ds cs : List (String × ℚ)) : List (Payment × ℚ × ℚ) :=
  settleTraceFuel (ds.length + cs.length) ds cs

theorem paymentsSum_cons (p : Payment) (l : List Payment) :
    paymentsSum (p :: l) = p.amount + paymentsSum l := by
  simp [paymentsSum]

theorem sideSum_cons (x : String × ℚ) (l : List (String × ℚ)) :
    sideSum (x :: l) = x.2 + sideSum l := by
  simp [sideSum]

theorem sideSum_nonneg {l : List (String × ℚ)} (h : ∀ x ∈ l, (0 : ℚ) ≤ x.2) :
    0 ≤ sideSum l := by
  apply List.sum_nonneg
  intro y hy
  obtain ⟨x, hx, hxy⟩ := List.mem_map.mp hy
  exact hxy ▸ h x hx

theorem settleGoFuel_nil_left (fuel : Nat) (cs : List (String × ℚ)) :
    settleGoFuel fuel [] cs = [] := by
  cases fuel <;> rfl

theorem settleGoFuel_nil_right (fuel : Nat) (ds : List (String × ℚ)) :
    settleGoFuel fuel ds [] = [] := by
  cases fuel with
  | zero => rfl
  | succ f => cases ds <;> rfl

theorem settle_le_debtors (fuel : Nat) :
    ∀ ds cs : List (String × ℚ), (∀ x ∈ ds, (0 : ℚ) ≤ x.2) →
      paymentsSum (settleGoFuel fuel ds cs) ≤ sideSum ds := by
  induction fuel with
  | zero =>
    intro ds cs hds
    simp only [settleGoFuel, paymentsSum, List.map_nil, List.sum_nil]
    exact sideSum_nonneg hds
  | succ fuel ih =>
    intro ds cs hds
    cases ds with
    | nil => simp [settleGoFuel, paymentsSum, sideSum]
    | cons hd ds' =>
      obtain ⟨ud, d⟩ := hd
      cases cs with
      | nil =>
        simp only [settleGoFuel, paymentsSum, List.map_nil, List.sum_nil]
        exact sideSum_nonneg hds
      | cons hc cs' =>
        obtain ⟨uc, c⟩ := hc
        have hd0 : (0 : ℚ) ≤ d := hds (ud, d) (List.mem_cons_self _ _)
        have hds' : ∀ x ∈ ds', (0 : ℚ) ≤ x.2 :=
          fun x hx => hds x (List.mem_cons_of_mem _ hx)
        have hmin_d : min d c ≤ d := min_le_left d c
        simp only [settleGoFuel]
        by_cases h1 : d - min d c ≤ EPSILON
        · by_cases h2 : c - min d c ≤ EPSILON
          · rw [if_pos h1, if_pos h2, paymentsSum_cons, sideSum_cons]
            have := ih ds' cs' hds'
            simp only at this ⊢
            linarith
          · rw [if_pos h1, if_neg h2, paymentsSum_cons, sideSum_cons]
            have := ih ds' ((uc, c - min d c) :: cs') hds'
            simp only at this ⊢
            linarith
        · rw [if_neg h1, paymentsSum_cons, sideSum_cons]
          have := ih ((ud, d - min d c) :: ds') cs'
            (by
              intro x hx
              rcases List.mem_cons.mp hx with rfl | hx
              · simp only
                linarith
              · exact hds' x hx)
          rw [sideSum_cons] at this
          simp only at this ⊢
          linarith

theorem settle_le_creditors (fuel : Nat) :
    ∀ ds cs : List (String × ℚ), (∀ x ∈ cs, (0 : ℚ) ≤ x.2) →
      paymentsSum (settleGoFuel fuel ds cs) ≤ sideSum cs := by
  induction fuel with
  | zero =>
    intro ds cs hcs
    simp only [settleGoFuel, paymentsSum, List.map_nil, List.sum_nil]
    exact sideSum_nonneg hcs
  | succ fuel ih =>
    intro ds cs hcs
    cases ds with
    | nil =>
      simp only [settleGoFuel, paymentsSum, List.map_nil, List.sum_nil]
      exact sideSum_nonneg hcs
    | cons hd ds' =>
      obtain ⟨ud, d⟩ := hd
      cases cs with
      | nil => simp [settleGoFuel, paymentsSum, sideSum]
      | cons hc cs' =>
        obtain ⟨uc, c⟩ := hc
        have hc0 : (0 : ℚ) ≤ c := hcs (uc, c) (List.mem_cons_self _ _)
        have hcs' : ∀ x ∈ cs', (0 : ℚ) ≤ x.2 :=
          fun x hx => hcs x (List.mem_cons_of_mem _ hx)
        have hmin_c : min d c ≤ c := min_le_right d c
        simp only [settleGoFuel]
        by_cases h1 : d - min d c ≤ EPSILON
        · by_cases h2 : c - min d c ≤ EPSILON
          · rw [if_pos h1, if_pos h2, paymentsSum_cons, sideSum_cons]
            have := ih ds' cs' hcs'
            simp only at this ⊢
            linarith
          · rw [if_pos h1, if_neg h2, paymentsSum_cons, sideSum_cons]
            have := ih ds' ((uc, c - min d c) :: cs')
              (by
                intro x hx
                rcases List.mem_cons.mp hx with rfl | hx
                · simp only
                  linarith
                · exact hcs' x hx)
            rw [sideSum_cons] at this
            simp only at this ⊢
            linarith
        · rw [if_neg h1, paymentsSum_cons, sideSum_cons]
          have := ih ((ud, d - min d c) :: ds') cs' hcs'
          simp only at this ⊢
          linarith

theorem EPSILON_nonneg : (0 : ℚ) ≤ EPSILON := by norm_num [EPSILON]

theorem settle_lower (fuel : Nat) :
    ∀ ds cs : List (String × ℚ), ds.length + cs.length ≤ fuel →
      (∀ x ∈ ds, EPSILON < x.2) → (∀ x ∈ cs, EPSILON < x.2) →
      min (sideSum ds) (sideSum cs)
        ≤ paymentsSum (settleGoFuel fuel ds cs)
          + ((ds.length + cs.length : Nat) : ℚ) * EPSILON := by
  have hE := EPSILON_nonneg
  induction fuel with
  | zero =>
    intro ds cs hlen _ _
    have hds : ds = [] := List.length_eq_zero.mp (by omega)
    have hcs : cs = [] := List.length_eq_zero.mp (by omega)
    subst hds
    subst hcs
    simp [settleGoFuel, paymentsSum, sideSum]
  | succ fuel ih =>
    intro ds cs hlen hds hcs
    cases ds with
    | nil =>
      have h1 : min (sideSum []) (sideSum cs) ≤ 0 := by
        simp [sideSum]
      have h2 : (0 : ℚ) ≤ (((List.length ([] : List (String × ℚ))) + cs.length : Nat) : ℚ)
          * EPSILON := mul_nonneg (by positivity) hE
      calc min (sideSum []) (sideSum cs) ≤ 0 := h1
        _ ≤ _ := by
          simp only [settleGoFuel_nil_left, paymentsSum, List.map_nil, List.sum_nil, zero_add]
          exact h2
    | cons hdp ds' =>
      obtain ⟨ud, d⟩ := hdp
      cases cs with
      | nil =>
        have h1 : min (sideSum ((ud, d) :: ds')) (sideSum []) ≤ 0 := by
          have := min_le_right (sideSum ((ud, d) :: ds')) (sideSum ([] : List (String × ℚ)))
          simp only [sideSum, List.map_nil, List.sum_nil] at this
          exact this
        have h2 : (0 : ℚ) ≤ ((((ud, d) :: ds').length + 0 : Nat) : ℚ) * EPSILON :=
          mul_nonneg (by positivity) hE
        calc min (sideSum ((ud, d) :: ds')) (sideSum []) ≤ 0 := h1
          _ ≤ _ := by
            simp only [settleGoFuel_nil_right, paymentsSum, List.map_nil, List.sum_nil,
              List.length_nil, zero_add]
            exact h2
      | cons hcp cs' =>
        obtain ⟨uc, c⟩ := hcp
        have hd0 : EPSILON < d := hds (ud, d) (List.mem_cons_self _ _)
        have hc0 : EPSILON < c := hcs (uc, c) (List.mem_cons_self _ _)
        have hds' : ∀ x ∈ ds', EPSILON < x.2 := fun x hx => hds x (List.mem_cons_of_mem _ hx)
        have hcs' : ∀ x ∈ cs', EPSILON < x.2 := fun x hx => hcs x (List.mem_cons_of_mem _ hx)
        have hmin_d : min d c ≤ d := min_le_left d c
        have hmin_c : min d c ≤ c := min_le_right d c
        simp only [settleGoFuel]
        by_cases h1 : d - min d c ≤ EPSILON
        · by_cases h2 : c - min d c ≤ EPSILON
          · simp only [if_pos h1, if_pos h2, paymentsSum_cons, sideSum_cons]
            have hrec := ih ds' cs' (by simp only [List.length_cons] at hlen ⊢; omega)
              hds' hcs'
            have h3 : min (d + sideSum ds') (c + sideSum cs')
                ≤ min ((min d c + EPSILON) + sideSum ds') ((min d c + EPSILON) + sideSum cs') :=
              min_le_min (by linarith) (by linarith)
            have h4 : min ((min d c + EPSILON) + sideSum ds') ((min d c + EPSILON) + sideSum cs')
                = (min d c + EPSILON) + min (sideSum ds') (sideSum cs') :=
              min_add_add_left _ _ _
            simp only [List.length_cons] at hrec ⊢
            push_cast at hrec ⊢
            linarith
          · simp only [if_pos h1, if_neg h2, paymentsSum_cons, sideSum_cons]
            have hrec := ih ds' ((uc, c - min d c) :: cs')
              (by simp only [List.length_cons] at hlen ⊢; omega) hds'
              (by
                intro x hx
                rcases List.mem_cons.mp hx with rfl | hx
                · simp only
                  linarith [not_le.mp h2]
                · exact hcs' x hx)
            rw [sideSum_cons] at hrec
            have h3 : min (d + sideSum ds') (c + sideSum cs')
                ≤ min ((min d c + EPSILON) + sideSum ds')
                    ((min d c + EPSILON) + ((c - min d c) + sideSum cs')) :=
              min_le_min (by linarith) (by linarith)
            have h4 : min ((min d c + EPSILON) + sideSum ds')
                  ((min d c + EPSILON) + ((c - min d c) + sideSum cs'))
                = (min d c + EPSILON) + min (sideSum ds') ((c - min d c) + sideSum cs') :=
              min_add_add_left _ _ _
            simp only [List.length_cons] at hrec ⊢
            push_cast at hrec ⊢
            linarith
        · have hac : min d c = c := by
            rcases le_total d c with hdc | hcd
            · exfalso
              rw [min_eq_left hdc] at h1
              simp only [sub_self] at h1
              exact h1 hE
            · exact min_eq_right hcd
          simp only [if_neg h1, paymentsSum_cons, sideSum_cons]
          have hrec := ih ((ud, d - min d c) :: ds') cs'
            (by simp only [List.length_cons] at hlen ⊢; omega)
            (by
              intro x hx
              rcases List.mem_cons.mp hx with rfl | hx
              · simp only
                linarith [not_le.mp h1]
              · exact hds' x hx)
            hcs'
          rw [sideSum_cons] at hrec
          have e1 : d + sideSum ds' = min d c + ((d - min d c) + sideSum ds') := by ring
          have e2 : c + sideSum cs' = min d c + sideSum cs' := by rw [hac]
          have h4 : min (min d c + ((d - min d c) + sideSum ds')) (min d c + sideSum cs')
              = min d c + min ((d - min d c) + sideSum ds') (sideSum cs') :=
            min_add_add_left _ _ _
          rw [e1, e2, h4]
          simp only [List.length_cons] at hrec ⊢
          push_cast at hrec ⊢
          linarith

theorem settle_length (fuel : Nat) :
    ∀ ds cs : List (String × ℚ), ds.length + cs.length ≤ fuel →
      ds ≠ [] → cs ≠ [] →
      (settleGoFuel fuel ds cs).length + 1 ≤ ds.length + cs.length := by
  induction fuel with
  | zero =>
    intro ds cs hlen hne _
    have := List.length_pos.mpr hne
    omega
  | succ fuel ih =>
    intro ds cs hlen hdne hcne
    cases ds with
    | nil => exact absurd rfl hdne
    | cons hdp ds' =>
      obtain ⟨ud, d⟩ := hdp
      cases cs with
      | nil => exact absurd rfl hcne
      | cons hcp cs' =>
        obtain ⟨uc, c⟩ := hcp
        simp only [settleGoFuel, List.length_cons]
        by_cases h1 : d - min d c ≤ EPSILON
        · by_cases h2 : c - min d c ≤ EPSILON
          · simp only [if_pos h1, if_pos h2]
            by_cases hds' : ds' = []
            · subst hds'
              simp only [settleGoFuel_nil_left, List.length_nil, List.length_cons]
              omega
            · by_cases hcs' : cs' = []
              · subst hcs'
                simp only [settleGoFuel_nil_right, List.length_nil, List.length_cons]
                omega
              · have := ih ds' cs' (by simp only [List.length_cons] at hlen; omega) hds' hcs'
                omega
          · simp only [if_pos h1, if_neg h2]
            by_cases hds' : ds' = []
            · subst hds'
              simp only [settleGoFuel_nil_left, List.length_nil, List.length_cons]
              omega
            · have := ih ds' ((uc, c - min d c) :: cs')
                (by simp only [List.length_cons] at hlen ⊢; omega) hds' (by simp)
              simp only [List.length_cons] at this
              omega
        · simp only [if_neg h1]
          by_cases hcs' : cs' = []
          · subst hcs'
            simp only [settleGoFuel_nil_right, List.length_nil, List.length_cons]
            omega
          · have := ih ((ud, d - min d c) :: ds') cs'
              (by simp only [List.length_cons] at hlen ⊢; omega) (by simp) hcs'
            simp only [List.length_cons] at this
            omega

theorem settleTraceFuel_map_fst (fuel : Nat) :
    ∀ ds cs, (settleTraceFuel fuel ds cs).map Prod.fst = settleGoFuel fuel ds cs := by
  induction fuel with
  | zero => intro ds cs; rfl
  | succ fuel ih =>
    intro ds cs
    cases ds with
    | nil => rfl
    | cons hdp ds' =>
      obtain ⟨ud, d⟩ := hdp
      cases cs with
      | nil => rfl
      | cons hcp cs' =>
        obtain ⟨uc, c⟩ := hcp
        simp only [settleTraceFuel, settleGoFuel]
        by_cases h1 : d - min d c ≤ EPSILON
        · by_cases h2 : c - min d c ≤ EPSILON
          · simp only [if_pos h1, if_pos h2, List.map_cons, ih]
          · simp only [if_pos h1, if_neg h2, List.map_cons, ih]
        · simp only [if_neg h1, List.map_cons, ih]

theorem settleTraceFuel_amount (fuel : Nat) :
    ∀ ds cs, ∀ t ∈ settleTraceFuel fuel ds cs, t.1.amount = min t.2.1 t.2.2 := by
  induction fuel with
  | zero => intro ds cs t ht; exact absurd ht (List.not_mem_nil t)
  | succ fuel ih =>
    intro ds cs t ht
    cases ds with
    | nil => exact absurd ht (List.not_mem_nil t)
    | cons hdp ds' =>
      obtain ⟨ud, d⟩ := hdp
      cases cs with
      | nil => exact absurd ht (List.not_mem_nil t)
      | cons hcp cs' =>
        obtain ⟨uc, c⟩ := hcp
        simp only [settleTraceFuel] at ht
        rcases List.mem_cons.mp ht with rfl | ht'
        · rfl
        · by_cases h1 : d - min d c ≤ EPSILON
          · by_cases h2 : c - min d c ≤ EPSILON
            · rw [if_pos h1, if_pos h2] at ht'
              exact ih _ _ t ht'
            · rw [if_pos h1, if_neg h2] at ht'
              exact ih _ _ t ht'
          · rw [if_neg h1] at ht'
            exact ih _ _ t ht'

theorem insertDesc_perm (x : String × ℚ) (l : List (String × ℚ)) :
    List.Perm (insertDesc x l) (x :: l) := by
  induction l with
  | nil => exact List.Perm.refl _
  | cons y ys ih =>
    simp only [insertDesc]
    by_cases h : y.2 ≤ x.2
    · rw [if_pos h]
    · rw [if_neg h]
      exact (List.Perm.cons y ih).trans (List.Perm.swap x y ys)

theorem sortDesc_perm (l : List (String × ℚ)) : List.Perm (sortDesc l) l := by
  induction l with
  | nil => exact List.Perm.refl _
  | cons x xs ih =>
    show List.Perm (insertDesc x (sortDesc xs)) (x :: xs)
    exact (insertDesc_perm x (sortDesc xs)).trans (List.Perm.cons x ih)

theorem sortDesc_sideSum (l : List (String × ℚ)) : sideSum (sortDesc l) = sideSum l :=
  List.Perm.sum_eq ((sortDesc_perm l).map (·.2))

theorem sortDesc_length (l : List (String × ℚ)) : (sortDesc l).length = l.length :=
  (sortDesc_perm l).length_eq

theorem sortDesc_mem {x : String × ℚ} {l : List (String × ℚ)} :
    x ∈ sortDesc l ↔ x ∈ l :=
  (sortDesc_perm l).mem_iff

theorem debtorsOf_pos (nets : Dict) : ∀ x ∈ debtorsOf nets, EPSILON < x.2 := by
  intro x hx
  obtain ⟨ua, _, hfx⟩ := List.mem_filterMap.mp hx
  by_cases h : ua.2 > EPSILON
  · rw [if_pos h] at hfx
    simp only [Option.some.injEq] at hfx
    rw [← hfx]
    exact h
  · rw [if_neg h] at hfx
    exact absurd hfx (by simp)

theorem creditorsOf_pos (nets : Dict) : ∀ x ∈ creditorsOf nets, EPSILON < x.2 := by
  intro x hx
  obtain ⟨ua, _, hfx⟩ := List.mem_filterMap.mp hx
  by_cases h : ua.2 < -EPSILON
  · rw [if_pos h] at hfx
    simp only [Option.some.injEq] at hfx
    rw [← hfx]
    simp only
    linarith
  · rw [if_neg h] at hfx
    exact absurd hfx (by simp)

/-- The example nets of the spec: `{A: 30, B: -10, C: -20}`. -/
def exampleNets : Dict := [("A", 30), ("B", -10), ("C", -20)]

/-- C5 (amended): for every net-balance mapping with at least one debtor and
one creditor, the greedy matcher's payments total at most the smaller of the
debtor-side and creditor-side totals, and at least that minimum less
`(|debtors| + |creditors|) * 1e-9` (skipped ε-sized residues account for the
gap); the payment count is at most `|debtors| + |creditors| - 1`; the payment
list is exactly the first component of the emission trace, in which every
payment's amount equals the minimum of — hence never exceeds — the payer's
and the payee's remaining net at the moment it is emitted; and on nets
`{A: 30, B: -10, C: -20}` the result is the two payments A→C 20 and A→B 10,
totalling exactly 30. -/
theorem build_payments_spec (nets : Dict)
    (hd : debtorsOf nets ≠ []) (hc : creditorsOf nets ≠ []) :
    paymentsSum (build_payments nets)
        ≤ min (sideSum (debtorsOf nets)) (sideSum (creditorsOf nets)) ∧
    min (sideSum (debtorsOf nets)) (sideSum (creditorsOf nets))
        ≤ paymentsSum (build_payments nets)
          + (((debtorsOf nets).length + (creditorsOf nets).length : Nat) : ℚ) * EPSILON ∧
    (build_payments nets).length
        ≤ (debtorsOf nets).length + (creditorsOf nets).length - 1 ∧
    build_payments nets
        = (settleTrace (sortDesc (debtorsOf nets))
            (sortDesc (creditorsOf nets))).map Prod.fst ∧
    (∀ t ∈ settleTrace (sortDesc (debtorsOf nets)) (sortDesc (creditorsOf nets)),
        t.1.amount = min t.2.1 t.2.2 ∧ t.1.amount ≤ t.2.1 ∧ t.1.amount ≤ t.2.2) ∧
    build_payments exampleNets = [⟨"A", "C", 20⟩, ⟨"A", "B", 10⟩] ∧
    paymentsSum (build_payments exampleNets) = 30 := by
  have hbp : build_payments nets
      = settleGoFuel
          ((sortDesc (debtorsOf nets)).length + (sortDesc (creditorsOf nets)).length)
          (sortDesc (debtorsOf nets)) (sortDesc (creditorsOf nets)) := by
    simp only [build_payments, settleGo]
    rw [if_neg]
    push_neg
    exact ⟨hd, hc⟩
  have hbp2 : build_payments nets
      = settleGoFuel ((debtorsOf nets).length + (creditorsOf nets).length)
          (sortDesc (debtorsOf nets)) (sortDesc (creditorsOf nets)) := by
    rw [hbp, sortDesc_length, sortDesc_length]
  have hdpos : ∀ x ∈ sortDesc (debtorsOf nets), EPSILON < x.2 :=
    fun x hx => debtorsOf_pos nets x (sortDesc_mem.mp hx)
  have hcpos : ∀ x ∈ sortDesc (creditorsOf nets), EPSILON < x.2 :=
    fun x hx => creditorsOf_pos nets x (sortDesc_mem.mp hx)
  have hdnn : ∀ x ∈ sortDesc (debtorsOf nets), (0 : ℚ) ≤ x.2 :=
    fun x hx => le_trans EPSILON_nonneg (le_of_lt (hdpos x hx))
  have hcnn : ∀ x ∈ sortDesc (creditorsOf nets), (0 : ℚ) ≤ x.2 :=
    fun x hx => le_trans EPSILON_nonneg (le_of_lt (hcpos x hx))
  have hdlen : 0 < (debtorsOf nets).length := List.length_pos.mpr hd
  have hclen : 0 < (creditorsOf nets).length := List.length_pos.mpr hc
  refine ⟨?_, ?_, ?_, ?_, ?_, ?_, ?_⟩
  · rw [hbp]
    apply le_min
    · calc paymentsSum _ ≤ sideSum (sortDesc (debtorsOf nets)) :=
            settle_le_debtors _ _ _ hdnn
        _ = sideSum (debtorsOf nets) := sortDesc_sideSum _
    · calc paymentsSum _ ≤ sideSum (sortDesc (creditorsOf nets)) :=
            settle_le_creditors _ _ _ hcnn
        _ = sideSum (creditorsOf nets) := sortDesc_sideSum _
  · have := settle_lower
      ((sortDesc (debtorsOf nets)).length + (sortDesc (creditorsOf nets)).length)
      (sortDesc (debtorsOf nets)) (sortDesc (creditorsOf nets)) (le_refl _) hdpos hcpos
    rw [sortDesc_sideSum, sortDesc_sideSum, sortDesc_length, sortDesc_length, ← hbp2] at this
    exact this
  · have hne1 : sortDesc (debtorsOf nets) ≠ [] := by
      have : 0 < (sortDesc (debtorsOf nets)).length := by rw [sortDesc_length]; exact hdlen
      exact List.length_pos.mp this
    have hne2 : sortDesc (creditorsOf nets) ≠ [] := by
      have : 0 < (sortDesc (creditorsOf nets)).length := by rw [sortDesc_length]; exact hclen
      exact List.length_pos.mp this
    have := settle_length
      ((sortDesc (debtorsOf nets)).length + (sortDesc (creditorsOf nets)).length)
      (sortDesc (debtorsOf nets)) (sortDesc (creditorsOf nets)) (le_refl _) hne1 hne2
    rw [sortDesc_length, sortDesc_length, ← hbp2] at this
    omega
  · show build_payments nets
      = (settleTraceFuel
          ((sortDesc (debtorsOf nets)).length + (sortDesc (creditorsOf nets)).length)
          (sortDesc (debtorsOf nets)) (sortDesc (creditorsOf nets))).map Prod.fst
    rw [hbp]
    exact (settleTraceFuel_map_fst _ _ _).symm
  · intro t ht
    have := settleTraceFuel_amount _ _ _ t ht
    exact ⟨this, this ▸ min_le_left _ _, this ▸ min_le_right _ _⟩
  · with_unfolding_all decide
  · with_unfolding_all decide

theorem build_payments_spec_witness :
    (debtorsOf exampleNets ≠ [] ∧ creditorsOf exampleNets ≠ []) ∧
    (paymentsSum (build_payments exampleNets)
        ≤ min (sideSum (debtorsOf exampleNets)) (sideSum (creditorsOf exampleNets)) ∧
      min (sideSum (debtorsOf exampleNets)) (sideSum (creditorsOf exampleNets))
        ≤ paymentsSum (build_payments exampleNets)
          + (((debtorsOf exampleNets).length + (creditorsOf exampleNets).length : Nat) : ℚ)
            * EPSILON ∧
      (build_payments exampleNets).length
        ≤ (debtorsOf exampleNets).length + (creditorsOf exampleNets).length - 1 ∧
      build_payments exampleNets
        = (settleTrace (sortDesc (debtorsOf exampleNets))
            (sortDesc (creditorsOf exampleNets))).map Prod.fst ∧
      (∀ t ∈ settleTrace (sortDesc (debtorsOf exampleNets))
          (sortDesc (creditorsOf exampleNets)),
        t.1.amount = min t.2.1 t.2.2 ∧ t.1.amount ≤ t.2.1 ∧ t.1.amount ≤ t.2.2) ∧
      build_payments exampleNets = [⟨"A", "C", 20⟩, ⟨"A", "B", 10⟩] ∧
      paymentsSum (build_payments exampleNets) = 30) :=
  ⟨⟨by with_unfolding_all decide, by with_unfolding_all decide⟩,
    build_payments_spec exampleNets (by with_unfolding_all decide)
      (by with_unfolding_all decide)⟩

/-- C5 (counterexample): with ε = 1e-9 and nets
`{A: 2 + ε/2, B: 1, C: -2, D: -(1 + ε/2)}` — all four pass the
debtor/creditor filters — the greedy matcher emits payments A→C 2 and B→D 1,
totalling 3, while both side totals are `3 + ε/2`; the emitted total is
strictly below the minimum of the side totals because ε-sized residues are
advanced past without ever being paid. -/
theorem build_payments_total_eq_min_false :
    paymentsSum (build_payments
        [("A", 2 + 1 / 2000000000), ("B", 1), ("C", -2), ("D", -(1 + 1 / 2000000000))])
      ≠ min
          (sideSum (debtorsOf
            [("A", 2 + 1 / 2000000000), ("B", 1), ("C", -2), ("D", -(1 + 1 / 2000000000))]))
          (sideSum (creditorsOf
            [("A", 2 + 1 / 2000000000), ("B", 1), ("C", -2), ("D", -(1 + 1 / 2000000000))])) := by
  with_unfolding_all decide

/-! ## Balance synchronization (`src/services/balance_sync.py`) -/

/-- The `0.000001` significance threshold of `compute_deltas`. -/
def DELTA_EPSILON : ℚ := 1 / 1000000

/-- `BalanceDelta` from `src/services/balance_sync.py`. -/
structure BalanceDelta where
  address : String
  current_balance : ℚ
  target_balance : ℚ
  delta : ℚ
deriving DecidableEq, Repr

/-- `BalanceDelta.amount`: the absolute amount to mint or burn. -/
def BalanceDelta.amount (d : BalanceDelta) : ℚ := |d.delta|

/-- `compute_deltas`: per-address `delta = target - current` over the union
of the two key sets; keep only deltas with `|delta| > 0.000001`.  Python
iterates a `set` in unspecified order; the embedding fixes the deduplicated
key order, and everything proved below is order-independent (per-address
membership and values). -/
def compute_deltas (current target : Dict) : List BalanceDelta :=
  ((current.map Prod.fst ++ target.map Prod.fst).dedup).filterMap (fun a =>
    let cur := getD current a 0
    let tar := getD target a 0
    let delta := tar - cur
    if |delta| > DELTA_EPSILON then some ⟨a, cur, tar, delta⟩ else none)

/-- A ledger operation issued by `batch_execute_operations`. -/
inductive SyncOp where
  | mint (address : String) (amount : ℚ)
  | burn (address : String) (amount : ℚ)
  | noop (address : String)
deriving DecidableEq, Repr

/-- The operation `execute_operation` issues for one delta: a mint of
`|delta|` when `needs_mint` (`delta > 0`), a burn of `|delta|` when
`needs_burn` (`delta < 0`), nothing otherwise (unreachable for the output of
`compute_deltas`). -/
def opFor (d : BalanceDelta) : SyncOp :=
  if d.delta > 0 then SyncOp.mint d.address d.amount
  else if d.delta < 0 then SyncOp.burn d.address d.amount
  else SyncOp.noop d.address

/-- The ledger operations `batch_execute_operations` submits for a delta
list: exactly one per delta (the thread pool collects results in completion
order, a permutation nothing below depends on). -/
def issuedOps (deltas : List BalanceDelta) : List SyncOp := deltas.map opFor

/-- Whether an operation concerns the given holder address. -/
def isOpFor (a : String) : SyncOp → Bool
  | SyncOp.mint b _ => b = a
  | SyncOp.burn b _ => b = a
  | SyncOp.noop b => b = a

theorem isOpFor_opFor (a : String) (d : BalanceDelta) :
    isOpFor a (opFor d) = decide (d.address = a) := by
  unfold opFor isOpFor
  split_ifs <;> rfl

theorem lookup_eq_none_of_not_mem_keys {α : Type} {d : List (String × α)} {a : String}
    (h : a ∉ d.map Prod.fst) : d.lookup a = none := by
  induction d with
  | nil => rfl
  | cons x xs ih =>
    simp only [List.map_cons, List.mem_cons, not_or] at h
    have hne : (a == x.1) = false := beq_eq_false_iff_ne.mpr fun he => h.1 he
    obtain ⟨k, v⟩ := x
    simp only [List.lookup]
    simp only at hne
    rw [hne]
    exact ih h.2

theorem filterMap_addr_filter (mk : String → Option BalanceDelta)
    (hmk : ∀ x d, mk x = some d → d.address = x) (a : String) :
    ∀ l : List String, l.Nodup →
      (l.filterMap mk).filter (fun d => d.address = a)
        = if a ∈ l then (mk a).toList else [] := by
  intro l
  induction l with
  | nil => intro _; simp
  | cons x xs ih =>
    intro hnd
    rw [List.nodup_cons] at hnd
    obtain ⟨hx, hnd'⟩ := hnd
    by_cases hax : a = x
    · subst hax
      cases hmka : mk a with
      | none =>
        simp only [List.filterMap_cons, hmka, ih hnd', if_neg hx]
        simp [hmka]
      | some d =>
        have haddr := hmk a d hmka
        simp only [List.filterMap_cons, hmka, List.filter_cons]
        rw [if_pos (by simp [haddr]), ih hnd', if_neg hx]
        simp [hmka]
    · cases hmkx : mk x with
      | none =>
        simp only [List.filterMap_cons, hmkx, ih hnd']
        simp [List.mem_cons, hax]
      | some d =>
        have haddr := hmk x d hmkx
        simp only [List.filterMap_cons, hmkx, List.filter_cons]
        rw [if_neg (by simp [haddr]; exact fun he => hax he.symm), ih hnd']
        simp [List.mem_cons, hax]

theorem compute_deltas_filter (current target : Dict) (a : String) :
    (compute_deltas current target).filter (fun d => d.address = a)
      = if |getD target a 0 - getD current a 0| > DELTA_EPSILON then
          [⟨a, getD current a 0, getD target a 0, getD target a 0 - getD current a 0⟩]
        else [] := by
  unfold compute_deltas
  rw [filterMap_addr_filter _ (fun x d hd => by
      simp only at hd
      by_cases hc : |getD target x 0 - getD current x 0| > DELTA_EPSILON
      · rw [if_pos hc] at hd
        simp only [Option.some.injEq] at hd
        rw [← hd]
      · rw [if_neg hc] at hd
        exact absurd hd (by simp))
    a _ (List.nodup_dedup _)]
  by_cases hmem : a ∈ (current.map Prod.fst ++ target.map Prod.fst).dedup
  · rw [if_pos hmem]
    simp only
    by_cases hc : |getD target a 0 - getD current a 0| > DELTA_EPSILON
    · rw [if_pos hc, if_pos hc]
      rfl
    · rw [if_neg hc, if_neg hc]
      rfl
  · rw [if_neg hmem]
    have hcur : getD current a 0 = 0 := by
      rw [getD, lookup_eq_none_of_not_mem_keys (fun hmem2 =>
        hmem (List.mem_dedup.mpr (List.mem_append.mpr (Or.inl hmem2))))]
      rfl
    have htar : getD target a 0 = 0 := by
      rw [getD, lookup_eq_none_of_not_mem_keys (fun hmem2 =>
        hmem (List.mem_dedup.mpr (List.mem_append.mpr (Or.inr hmem2))))]
      rfl
    rw [hcur, htar]
    rw [if_neg (by norm_num [DELTA_EPSILON])]

/-- C8: for every pair of current/target balance maps and every holder
address, the synchronizer issues exactly one mint of `delta` when
`delta = target − current` exceeds the 1e-6 threshold, exactly one burn of
`−delta` when `delta` is below `−1e-6`, and nothing at all when
`|delta| ≤ 1e-6` (in particular for addresses outside both maps, whose delta
is 0); target `{X: 100}` with current `{X: 40}` yields exactly one mint of
60, and with current `{X: 150}` exactly one burn of 50. -/
theorem sync_ops_per_address (current target : Dict) (a : String) :
    ((issuedOps (compute_deltas current target)).filter (isOpFor a)
      = if getD target a 0 - getD current a 0 > DELTA_EPSILON then
          [SyncOp.mint a (getD target a 0 - getD current a 0)]
        else if getD target a 0 - getD current a 0 < -DELTA_EPSILON then
          [SyncOp.burn a (-(getD target a 0 - getD current a 0))]
        else []) ∧
    issuedOps (compute_deltas [("X", 40)] [("X", 100)]) = [SyncOp.mint "X" 60] ∧
    issuedOps (compute_deltas [("X", 150)] [("X", 100)]) = [SyncOp.burn "X" 50] := by
  refine ⟨?_, by with_unfolding_all decide, by with_unfolding_all decide⟩
  unfold issuedOps
  rw [List.filter_map]
  have hcong : (compute_deltas current target).filter (isOpFor a ∘ opFor)
      = (compute_deltas current target).filter (fun d => d.address = a) :=
    List.filter_congr fun d _ => by
      simp only [Function.comp_apply, isOpFor_opFor]
  rw [hcong, compute_deltas_filter]
  have hEpos : (0 : ℚ) < DELTA_EPSILON := by norm_num [DELTA_EPSILON]
  by_cases h1 : getD target a 0 - getD current a 0 > DELTA_EPSILON
  · rw [if_pos (by rw [abs_of_pos (by linarith)]; exact h1), if_pos h1]
    simp only [List.map_cons, List.map_nil, List.cons.injEq, and_true]
    unfold opFor BalanceDelta.amount
    rw [if_pos (by simp only; linarith)]
    simp only [abs_of_pos (show (0:ℚ) < getD target a 0 - getD current a 0 by linarith)]
  · by_cases h2 : getD target a 0 - getD current a 0 < -DELTA_EPSILON
    · rw [if_pos (by rw [abs_of_neg (by linarith)]; linarith), if_neg h1, if_pos h2]
      simp only [List.map_cons, List.map_nil, List.cons.injEq, and_true]
      unfold opFor BalanceDelta.amount
      rw [if_neg (by simp only; linarith), if_pos (by simp only; linarith)]
      simp only [abs_of_neg (show getD target a 0 - getD current a 0 < 0 by linarith)]
    · rw [if_neg (not_lt.mpr (abs_le.mpr ⟨by linarith, by linarith⟩)), if_neg h1, if_neg h2]
      simp

theorem lookup_dictSet_self {α : Type} (m : List (String × α)) (k : String) (v : α) :
    (dictSet m k v).lookup k = some v := by
  induction m with
  | nil => simp [dictSet, List.lookup]
  | cons x xs ih =>
    obtain ⟨k0, v0⟩ := x
    by_cases h : k0 = k
    · subst h
      simp [dictSet, List.lookup]
    · have hbe : (k == k0) = false := beq_eq_false_iff_ne.mpr fun he => h he.symm
      simp only [dictSet, if_neg h, List.lookup, hbe]
      exact ih

theorem lookup_dictSet_ne {α : Type} (m : List (String × α)) {k k' : String} (v : α)
    (h : k' ≠ k) : (dictSet m k v).lookup k' = m.lookup k' := by
  induction m with
  | nil =>
    simp only [dictSet, List.lookup, beq_eq_false_iff_ne.mpr h]
  | cons x xs ih =>
    obtain ⟨k0, v0⟩ := x
    by_cases h0 : k0 = k
    · subst h0
      simp only [dictSet, if_pos rfl, List.lookup, beq_eq_false_iff_ne.mpr h]
    · simp only [dictSet, if_neg h0, List.lookup]
      cases hbe : (k' == k0) with
      | true => rfl
      | false => exact ih

theorem foldl_dictSet_lookup (f : String → ℚ) (h : String) :
    ∀ (hs : List String) (m : Dict),
      (h ∈ hs ∨ m.lookup h = some (f h)) →
      ((hs.foldl (fun m a => dictSet m a (f a)) m).lookup h) = some (f h) := by
  intro hs
  induction hs with
  | nil =>
    intro m hm
    rcases hm with hmem | hl
    · exact absurd hmem (List.not_mem_nil h)
    · exact hl
  | cons a tl ih =>
    intro m hm
    simp only [List.foldl_cons]
    by_cases hah : a = h
    · subst hah
      exact ih _ (Or.inr (lookup_dictSet_self m a (f a)))
    · rcases hm with hmem | hl
      · rcases List.mem_cons.mp hmem with heq | hmem'
        · exact absurd heq.symm hah
        · exact ih _ (Or.inl hmem')
      · exact ih _ (Or.inr (by
          rw [lookup_dictSet_ne m (f a) (fun he => hah he.symm)]
          exact hl))

/-- The observable outcome of one `sync_balances` call. -/
structure SyncOutcome where
  current : Dict
  deltas : List BalanceDelta
  results : List (BalanceDelta × Bool)
  outcome : Except String Dict
deriving Repr

/-- `sync_balances` from `src/services/balance_sync.py`, with the external
interactions supplied as functions: `query a = none` models a failed balance
query (the code logs the error and records the holder's current balance as
`0.0`); `opOk d` says whether the mint/burn submission for delta `d`
succeeds.  The worker pools issue exactly one query per holder and one
operation per delta; results arrive in completion order, a permutation
nothing proved here depends on.  `Except.error` is the raised
`XRPLClientError` (`PartialSyncFailure`). -/
def sync_balances (target : Dict) (holders : List String)
    (query : String → Option ℚ) (opOk : BalanceDelta → Bool) : SyncOutcome :=
  let current : Dict := holders.foldl (fun m a => dictSet m a ((query a).getD 0)) []
  let deltas := compute_deltas current target
  if deltas.isEmpty then ⟨current, deltas, [], Except.ok current⟩
  else
    let results := deltas.map (fun d => (d, opOk d))
    let finalBalances := results.foldl
      (fun m r => if r.2 then dictSet m r.1.address r.1.target_balance else m) current
    let failed := (results.filter (fun r => !r.2)).length
    ⟨current, deltas, results,
      if failed > 0 then Except.error "PartialSyncFailure" else Except.ok finalBalances⟩

theorem sync_balances_nonempty_eq (target : Dict) (holders : List String)
    (query : String → Option ℚ) (opOk : BalanceDelta → Bool)
    (hE : (compute_deltas
        (holders.foldl (fun m a => dictSet m a ((query a).getD 0)) []) target).isEmpty
      = false) :
    sync_balances target holders query opOk =
      ⟨holders.foldl (fun m a => dictSet m a ((query a).getD 0)) [],
        compute_deltas
          (holders.foldl (fun m a => dictSet m a ((query a).getD 0)) []) target,
        (compute_deltas
          (holders.foldl (fun m a => dictSet m a ((query a).getD 0)) []) target).map
          (fun d => (d, opOk d)),
        if 0 < (((compute_deltas
              (holders.foldl (fun m a => dictSet m a ((query a).getD 0)) []) target).map
              (fun d => (d, opOk d))).filter (fun r => !r.2)).length then
          Except.error "PartialSyncFailure"
        else
          Except.ok
            (((compute_deltas
                (holders.foldl (fun m a => dictSet m a ((query a).getD 0)) []) target).map
                (fun d => (d, opOk d))).foldl
              (fun m r => if r.2 then dictSet m r.1.address r.1.target_balance else m)
              (holders.foldl (fun m a => dictSet m a ((query a).getD 0)) []))⟩ := by
  simp only [sync_balances]
  rw [hE]
  simp

/-- C9 (amended): when the balance query for holder `h` fails during
`sync_balances`, `h`'s current balance is recorded as 0; the failed query is
not counted as a failed operation, so when all mint/burn submissions succeed
no `PartialSyncFailure` is raised and the call returns normally; and if `h`'s
target balance exceeds the 1e-6 significance threshold, exactly one mint —
of the full target amount — is issued for `h`. -/
theorem sync_balances_query_failure_spec (target : Dict) (holders : List String)
    (query : String → Option ℚ) (opOk : BalanceDelta → Bool) (h : String) (t : ℚ)
    (hq : query h = none) (hh : h ∈ holders) (ht : getD target h 0 = t)
    (hteps : DELTA_EPSILON < t) (hok : ∀ d, opOk d = true) :
    getD (sync_balances target holders query opOk).current h 0 = 0 ∧
    ((sync_balances target holders query opOk).deltas.filter
        (fun d => d.address = h)).map opFor = [SyncOp.mint h t] ∧
    ((sync_balances target holders query opOk).results.filter
        (fun r => !r.2)).length = 0 ∧
    (sync_balances target holders query opOk).outcome.isOk = true := by
  have hde : (0 : ℚ) < DELTA_EPSILON := by norm_num [DELTA_EPSILON]
  have hcurlk : (holders.foldl (fun m a => dictSet m a ((query a).getD 0)) []).lookup h
      = some 0 := by
    have := foldl_dictSet_lookup (fun a => (query a).getD 0) h holders [] (Or.inl hh)
    simp only [hq, Option.getD_none] at this
    exact this
  have hcur0 : getD (holders.foldl (fun m a => dictSet m a ((query a).getD 0)) []) h 0
      = 0 := by
    rw [getD, hcurlk]
    rfl
  have hfilter : (compute_deltas
        (holders.foldl (fun m a => dictSet m a ((query a).getD 0)) []) target).filter
        (fun d => d.address = h)
      = [⟨h, 0, t, t⟩] := by
    rw [compute_deltas_filter, hcur0, ht]
    rw [if_pos (by rw [sub_zero, abs_of_pos (by linarith)]; exact hteps)]
    simp
  have hne : compute_deltas
      (holders.foldl (fun m a => dictSet m a ((query a).getD 0)) []) target ≠ [] := by
    intro h0
    rw [h0] at hfilter
    exact absurd hfilter (by simp)
  have hEfalse : (compute_deltas
      (holders.foldl (fun m a => dictSet m a ((query a).getD 0)) []) target).isEmpty
      = false := by
    cases hcd : compute_deltas
        (holders.foldl (fun m a => dictSet m a ((query a).getD 0)) []) target with
    | nil => exact absurd hcd hne
    | cons x xs => rfl
  have hfail : ((compute_deltas
        (holders.foldl (fun m a => dictSet m a ((query a).getD 0)) []) target).map
        (fun d => (d, opOk d))).filter (fun r => !r.2) = [] := by
    rw [List.filter_eq_nil_iff]
    intro r hr
    obtain ⟨d, _, hdr⟩ := List.mem_map.mp hr
    rw [← hdr]
    simp [hok d]
  rw [sync_balances_nonempty_eq target holders query opOk hEfalse]
  dsimp only
  refine ⟨hcur0, ?_, ?_, ?_⟩
  · rw [hfilter]
    simp only [List.map_cons, List.map_nil, List.cons.injEq, and_true]
    unfold opFor BalanceDelta.amount
    rw [if_pos (by simp only; linarith)]
    simp only [abs_of_pos (show (0 : ℚ) < t by linarith)]
  · rw [hfail]
    rfl
  · rw [hfail]
    simp [Except.isOk, Except.toBool]

theorem sync_balances_query_failure_spec_witness :
    ((fun _ : String => (none : Option ℚ)) "H" = none ∧
      "H" ∈ ["H"] ∧
      getD [("H", (5 : ℚ))] "H" 0 = 5 ∧
      DELTA_EPSILON < (5 : ℚ) ∧
      (∀ d : BalanceDelta, (fun _ : BalanceDelta => true) d = true)) ∧
    (getD (sync_balances [("H", 5)] ["H"] (fun _ => none) (fun _ => true)).current "H" 0
        = 0 ∧
      ((sync_balances [("H", 5)] ["H"] (fun _ => none) (fun _ => true)).deltas.filter
          (fun d => d.address = "H")).map opFor = [SyncOp.mint "H" 5] ∧
      ((sync_balances [("H", 5)] ["H"] (fun _ => none) (fun _ => true)).results.filter
          (fun r => !r.2)).length = 0 ∧
      (sync_balances [("H", 5)] ["H"] (fun _ => none) (fun _ => true)).outcome.isOk
        = true) :=
  ⟨⟨rfl, by decide, by with_unfolding_all decide, by with_unfolding_all decide,
      fun _ => rfl⟩,
    sync_balances_query_failure_spec [("H", 5)] ["H"] (fun _ => none) (fun _ => true)
      "H" 5 rfl (by decide) (by with_unfolding_all decide)
      (by with_unfolding_all decide) (fun _ => rfl)⟩

/-- C9 (counterexample): a holder with the strictly positive target balance
`1e-7` whose balance query fails receives *no* mint at all — the recorded
current balance is 0, the delta `1e-7` is positive but below the 1e-6
significance threshold, so `compute_deltas` discards it and no operation is
issued; "a holder with a positive target balance is minted the full target
amount" is false as stated. -/
theorem sync_small_positive_target_not_minted :
    (0 : ℚ) < 1 / 10000000 ∧
    (fun _ : String => (none : Option ℚ)) "H" = none ∧
    (sync_balances [("H", 1 / 10000000)] ["H"] (fun _ => none) (fun _ => true)).deltas
      = [] ∧
    issuedOps
        (sync_balances [("H", 1 / 10000000)] ["H"] (fun _ => none)
          (fun _ => true)).deltas
      = [] := by
  refine ⟨by with_unfolding_all decide, rfl, ?_, ?_⟩ <;> with_unfolding_all decide

end LendX
